import Mathlib

/-
Verification of the BitcoinDiamond proof-of-work difficulty code
(src/pow.cpp, plus an earlier revision of the same file).

Embedding conventions:
* `arith_uint256`, the compact-target codec and
  `Consensus::Params::DifficultyAdjustmentInterval()` are declared in
  headers that are not part of this repository's sources; those parts are
  modelled from the specification (their doc comments say so).  Targets
  are `Nat` values intended to lie below `2 ^ 256`; per the spec the
  target arithmetic in the retarget formulas is exact (wide-enough
  intermediates), and explicit reductions `% 2 ^ 256` appear exactly where
  the fixed-width type forces them (the decode shift).
* C++ `int64_t` values (block times, consensus intervals) are idealized
  as `Int`.  C++ `int64_t` division truncates toward zero while Lean's
  `Int` division is Euclidean; they agree on nonnegative operands, and
  every theorem below constrains the parameters so that all divisions
  happen on nonnegative operands.
* The C++ `int` (32-bit) accumulators of the LWMA loop are wrapped with
  an explicit two's-complement reduction `wrap32`, since their overflow
  is reachable for extreme consensus parameters.
* The chain is a single backward-linked header sequence indexed by
  height; `GetAncestor h` is lookup at height `h`, and the `pprev` link
  exists exactly at positive heights.  The `assert` statements of the
  C++ code become preconditions of the theorems.
-/

namespace BCDPow

/-- A block header record as read by the difficulty code: the block time
(C++ `int64_t GetBlockTime()`) and the compact difficulty bits
(`uint32_t nBits`). -/
structure BlockData where
  time : Int
  bits : Nat

/-- Read-only view of one chain: `block h` is the header at height `h`
(`CBlockIndex::GetAncestor(h)`), `tipHeight` the height of `pindexLast`.
The predecessor of the block at height `h + 1` is the block at height `h`;
the genesis block at height `0` has none. -/
structure Chain where
  tipHeight : Nat
  block : Nat → BlockData

/-- Consensus::Params fields read by pow.cpp.  The two pow limits are
256-bit ceilings as numbers (intended `< 2 ^ 256`), heights are `Nat`
(the spec requires heights to be nonnegative), the `int64_t` fields are
idealized as `Int`. -/
structure Params where
  powLimit : Nat
  BCDBeginPowLimit : Nat
  BCDHeight : Nat
  ZawyLWMAHeight : Nat
  nPowTargetSpacing : Int
  nPowTargetTimespan : Int
  nZawyLwmaAveragingWindow : Int
  nZawyLwmaMinDenominator : Int
  fPowAllowMinDifficultyBlocks : Bool
  fPowNoRetargeting : Bool

/-- Modelled from the spec: "the legacy retarget interval length (derived
from a timespan divided by spacing)"; the body of
`Consensus::Params::DifficultyAdjustmentInterval()` is not among this
repository's sources. -/
def Params.DifficultyAdjustmentInterval (p : Params) : Int :=
  p.nPowTargetTimespan / p.nPowTargetSpacing

/-- Modelled from the spec: byte length of a number (the byte count that
`arith_uint256::GetCompact` derives from `bits()`), written as fuel-based
recursion so it is kernel-computable.  Fuel 64 makes it exact for every
`x < 256 ^ 64`, far above the 256-bit range in use. -/
def byteLenF : Nat → Nat → Nat
  | 0, _ => 0
  | f + 1, x => if x = 0 then 0 else byteLenF f (x / 256) + 1

/-- Byte length of a target value. -/
def byteLen (x : Nat) : Nat := byteLenF 64 x

/-- Modelled from the spec (Compact-Target Codec): the canonical compact
encoding of a target — one exponent byte holding the byte length, a
3-byte mantissa of most-significant bytes, shifted once more when the
mantissa's top bit (the sign flag) would be set.  Bit operations of the
C++ code are written as `/`, `%`, `*` on `Nat`, which coincide on the
in-range values. -/
def GetCompact (x : Nat) : Nat :=
  let size := byteLen x
  let compact := if size ≤ 3 then x * 256 ^ (3 - size) else x / 256 ^ (size - 3)
  if compact / 2 ^ 23 % 2 = 1 then compact / 256 + (size + 1) * 2 ^ 24
  else compact + size * 2 ^ 24

/-- Modelled from the spec (Compact-Target Codec): the value decoded by
`arith_uint256::SetCompact` — mantissa = low 23 bits, exponent = high
byte, value = mantissa scaled by `256 ^ (exponent - 3)`, reduced into the
256-bit domain exactly as the fixed-width left shift does. -/
def SetCompact (c : Nat) : Nat :=
  let size := c / 2 ^ 24
  let word := c % 2 ^ 23
  if size ≤ 3 then word / 256 ^ (3 - size)
  else word * 256 ^ (size - 3) % 2 ^ 256

/-- Modelled from the spec (Compact-Target Codec): decode reports
"negative" when the sign bit (bit 23) is set and the mantissa is
nonzero. -/
def SetCompactNegative (c : Nat) : Bool :=
  c % 2 ^ 23 != 0 && c / 2 ^ 23 % 2 == 1

/-- Modelled from the spec (Compact-Target Codec): decode reports
"overflow" when the mantissa/exponent combination would need more than
256 bits. -/
def SetCompactOverflow (c : Nat) : Bool :=
  let size := c / 2 ^ 24
  let word := c % 2 ^ 23
  word != 0 &&
    (decide (34 < size) || (decide (255 < word) && decide (33 < size)) ||
      (decide (65535 < word) && decide (32 < size)))

/-- Two's-complement wrap of a C++ 32-bit `int` into `[-2 ^ 31, 2 ^ 31)`;
applied where pow.cpp accumulates into `int` variables. -/
def wrap32 (x : Int) : Int := (x + 2 ^ 31) % 2 ^ 32 - 2 ^ 31

/-- The predecessor walk of BCDGetNextWorkRequired's non-boundary branch:
`while (pindex->pprev && pindex->nHeight % params.DifficultyAdjustmentInterval() != 0 && pindex->nBits == nProofOfWorkLimit) pindex = pindex->pprev; return pindex->nBits;`
starting from the block at the given height. -/
def walkMinDifficulty (ch : Chain) (dai : Int) (limitBits : Nat) : Nat → Nat
  | 0 => (ch.block 0).bits
  | h + 1 =>
    if ((h + 1 : Nat) : Int) % dai ≠ 0 ∧ (ch.block (h + 1)).bits = limitBits then
      walkMinDifficulty ch dai limitBits h
    else (ch.block (h + 1)).bits

/-- The `(powTargetTimespan, limit)` pair chosen at the top of
CalculateNextWorkRequired: post-fork `(72 * spacing, 2)`, pre-fork
`(nPowTargetTimespan, 4)`. -/
def retargetTimespanLimit (ch : Chain) (p : Params) : Int × Int :=
  if ch.tipHeight + 1 > p.BCDHeight then (72 * p.nPowTargetSpacing, 2)
  else (p.nPowTargetTimespan, 4)

/-- The two sequential clamps of `nActualTimespan` in
CalculateNextWorkRequired. -/
def clampTimespan (actual ts limit : Int) : Int :=
  let a := if actual < ts / limit then ts / limit else actual
  if a > ts * limit then ts * limit else a

/-- The retarget value of CalculateNextWorkRequired before compact
encoding: `bnNew = old * nActualTimespan / powTargetTimespan`, then the
ceiling clamp `if (bnNew > bnPowLimit) bnNew = bnPowLimit`.  The
multiplication and division are exact per the spec ("use a representation
wide enough"). -/
def CalculateNextWorkValue (ch : Chain) (nFirstBlockTime : Int) (p : Params) : Nat :=
  let tsl := retargetTimespanLimit ch p
  let a := clampTimespan ((ch.block ch.tipHeight).time - nFirstBlockTime) tsl.1 tsl.2
  let bnNew := SetCompact (ch.block ch.tipHeight).bits * a.toNat / tsl.1.toNat
  if bnNew > p.powLimit then p.powLimit else bnNew

/-- pow.cpp `CalculateNextWorkRequired`. -/
def CalculateNextWorkRequired (ch : Chain) (nFirstBlockTime : Int) (p : Params) : Nat :=
  if p.fPowNoRetargeting then (ch.block ch.tipHeight).bits
  else GetCompact (CalculateNextWorkValue ch nFirstBlockTime p)

/-- The effective `(height, interval)` pair chosen at the top of
BCDGetNextWorkRequired: post-fork `(h - BCDHeight, 72)`, pre-fork
`(h, DifficultyAdjustmentInterval())` for `h = tipHeight + 1`. -/
def bcdHeightInterval (ch : Chain) (p : Params) : Nat × Int :=
  if ch.tipHeight + 1 > p.BCDHeight then (ch.tipHeight + 1 - p.BCDHeight, 72)
  else (ch.tipHeight + 1, p.DifficultyAdjustmentInterval)

/-- pow.cpp `BCDGetNextWorkRequired` (the legacy periodic retarget).  The
C++ `assert(nHeightFirst >= 0)` becomes a precondition of the theorems;
`Nat` subtraction stands in for the asserted-nonnegative `int`
subtraction. -/
def BCDGetNextWorkRequired (ch : Chain) (pblockTime : Int) (p : Params) : Nat :=
  let hi := bcdHeightInterval ch p
  if ((hi.1 : Int)) % hi.2 ≠ 0 then
    if p.fPowAllowMinDifficultyBlocks then
      let nProofOfWorkLimit := GetCompact p.powLimit
      if pblockTime > (ch.block ch.tipHeight).time + p.nPowTargetSpacing * 2 then
        nProofOfWorkLimit
      else
        walkMinDifficulty ch p.DifficultyAdjustmentInterval nProofOfWorkLimit ch.tipHeight
    else (ch.block ch.tipHeight).bits
  else
    let nHeightFirst := ch.tipHeight - (hi.2 - 1).toNat
    CalculateNextWorkRequired ch (ch.block nHeightFirst).time p

/-- The LWMA window loop of pow.cpp `LwmaCalculateNextWorkRequired`:
arguments are the remaining iteration count, the current height `i`, then
the loop state `previousTimestamp`, `weight`, `sumWeightedSolvetimes`,
`avgTarget`; it returns the final `(sumWeightedSolvetimes, avgTarget)`.
`weight` and `sumWeightedSolvetimes` are C++ `int`s, hence the `wrap32`;
`target / (k * N)` is exact unsigned division per the spec, with a
negative divisor (unreachable under the theorems' hypotheses) clamped
at zero. -/
def lwmaLoop (ch : Chain) (T kN : Int) :
    Nat → Nat → Int → Int → Int → Nat → Int × Nat
  | 0, _, _, _, sumWS, avgT => (sumWS, avgT)
  | r + 1, i, prevTs, weight, sumWS, avgT =>
    let bt := (ch.block i).time
    let thisTs := if bt > prevTs then bt else prevTs + 1
    let solvetime := min (6 * T) (thisTs - prevTs)
    let weight' := wrap32 (weight + 1)
    let sumWS' := wrap32 (sumWS + solvetime * weight')
    let avgT' := avgT + SetCompact (ch.block i).bits / kN.toNat
    lwmaLoop ch T kN r (i + 1) thisTs weight' sumWS' avgT'

/-- pow.cpp `LwmaCalculateNextWorkRequired` with
`k = N * (N + 1) * T / 2`.  The final multiplication
`avgTarget * sumWeightedSolvetimes` is exact unsigned multiplication per
the spec, with a negative sum (unreachable under the theorems'
hypotheses) clamped at zero. -/
def LwmaCalculateNextWorkRequired (ch : Chain) (p : Params) : Nat :=
  if p.fPowNoRetargeting then (ch.block ch.tipHeight).bits
  else
    let T := p.nPowTargetSpacing
    let N := p.nZawyLwmaAveragingWindow
    let k := N * (N + 1) * T / 2
    let height := ch.tipHeight
    if (height : Int) < N then GetCompact p.BCDBeginPowLimit
    else
      let previousTimestamp := (ch.block (height - N.toNat)).time
      let res := lwmaLoop ch T (k * N) N.toNat (height - N.toNat + 1) previousTimestamp 0 0 0
      let nextTarget := res.2 * res.1.toNat
      let nextTarget := if nextTarget > p.BCDBeginPowLimit then p.BCDBeginPowLimit else nextTarget
      GetCompact nextTarget

/-- pow.cpp `LwmaGetNextWorkRequired`: the testnet minimum-difficulty
rule, then the LWMA computation. -/
def LwmaGetNextWorkRequired (ch : Chain) (pblockTime : Int) (p : Params) : Nat :=
  if p.fPowAllowMinDifficultyBlocks = true ∧
      pblockTime > (ch.block ch.tipHeight).time + p.nPowTargetSpacing * 2 then
    GetCompact p.BCDBeginPowLimit
  else LwmaCalculateNextWorkRequired ch p

/-- pow.cpp `GetNextWorkRequired` (the dispatcher). -/
def GetNextWorkRequired (ch : Chain) (pblockTime : Int) (p : Params) : Nat :=
  if ch.tipHeight + 1 = p.BCDHeight then GetCompact p.powLimit
  else if ch.tipHeight + 1 = p.BCDHeight + 1 then GetCompact p.BCDBeginPowLimit
  else if ch.tipHeight + 1 < p.ZawyLWMAHeight then BCDGetNextWorkRequired ch pblockTime p
  else LwmaGetNextWorkRequired ch pblockTime p

/-- The LWMA window loop of the earlier revision (src/unnamed/part_000):
identical to `lwmaLoop` with the loop variables named `j`, `t`,
`sumTarget`. -/
def lwmaLoop0 (ch : Chain) (T kN : Int) :
    Nat → Nat → Int → Int → Int → Nat → Int × Nat
  | 0, _, _, _, t, sumTarget => (t, sumTarget)
  | r + 1, i, prevTs, j, t, sumTarget =>
    let bt := (ch.block i).time
    let thisTs := if bt > prevTs then bt else prevTs + 1
    let solvetime := min (6 * T) (thisTs - prevTs)
    let j' := wrap32 (j + 1)
    let t' := wrap32 (t + solvetime * j')
    let sumTarget' := sumTarget + SetCompact (ch.block i).bits / kN.toNat
    lwmaLoop0 ch T kN r (i + 1) thisTs j' t' sumTarget'

/-- `LwmaCalculateNextWorkRequired` of the earlier revision
(src/unnamed/part_000): `k = N * (N + 1) / 2 * T` and
`nextTarget = t * sumTarget`. -/
def LwmaCalculateNextWorkRequired0 (ch : Chain) (p : Params) : Nat :=
  if p.fPowNoRetargeting then (ch.block ch.tipHeight).bits
  else
    let T := p.nPowTargetSpacing
    let N := p.nZawyLwmaAveragingWindow
    let k := N * (N + 1) / 2 * T
    let height := ch.tipHeight
    if (height : Int) < N then GetCompact p.BCDBeginPowLimit
    else
      let previousTimestamp := (ch.block (height - N.toNat)).time
      let res := lwmaLoop0 ch T (k * N) N.toNat (height - N.toNat + 1) previousTimestamp 0 0 0
      let nextTarget := res.1.toNat * res.2
      let nextTarget := if nextTarget > p.BCDBeginPowLimit then p.BCDBeginPowLimit else nextTarget
      GetCompact nextTarget

/-- pow.cpp `CheckProofOfWork`: decode the claimed bits, reject negative,
zero, overflowing or above-ceiling targets, then compare the hash (as a
256-bit unsigned number) against the target. -/
def CheckProofOfWork (hash : Nat) (nBits : Nat) (p : Params) : Bool :=
  let bnTarget := SetCompact nBits
  if SetCompactNegative nBits = true ∨ bnTarget = 0 ∨ SetCompactOverflow nBits = true ∨
      bnTarget > p.powLimit then false
  else if hash > bnTarget then false
  else true

/-- Triangular number `r * (r + 1) / 2`, written recursively; used to state
the closed form of the LWMA loop's weighted solvetime sum. -/
def triangle : Nat → Nat
  | 0 => 0
  | r + 1 => triangle r + (r + 1)

/-- Concrete chain used by the witnesses: constant bits encoding `2 ^ 100`
and block times spaced exactly 600 seconds. -/
def wChain (tip : Nat) : Chain := ⟨tip, fun i => ⟨1000 + 600 * (i : Int), GetCompact (2 ^ 100)⟩⟩

/-- Concrete consensus parameters used by the witnesses. -/
def wParams : Params :=
  { powLimit := 2 ^ 240
    BCDBeginPowLimit := 2 ^ 224
    BCDHeight := 10
    ZawyLWMAHeight := 20
    nPowTargetSpacing := 600
    nPowTargetTimespan := 2400
    nZawyLwmaAveragingWindow := 3
    nZawyLwmaMinDenominator := 3
    fPowAllowMinDifficultyBlocks := false
    fPowNoRetargeting := false }

/-- The witness parameters with the minimum-difficulty relaxation enabled. -/
def wParamsRelax : Params := { wParams with fPowAllowMinDifficultyBlocks := true }

/-- Parameters for the legacy-bound counterexample: the pre-fork timespan 7
is not divisible by the pre-fork limit 4. -/
def cexP3 : Params :=
  { powLimit := 2 ^ 240
    BCDBeginPowLimit := 2 ^ 224
    BCDHeight := 1000
    ZawyLWMAHeight := 1000
    nPowTargetSpacing := 600
    nPowTargetTimespan := 7
    nZawyLwmaAveragingWindow := 3
    nZawyLwmaMinDenominator := 3
    fPowAllowMinDifficultyBlocks := false
    fPowNoRetargeting := false }

/-- Chain for the legacy-bound counterexample: bits encode 28, block times
one second apart. -/
def cexCh3 : Chain := ⟨3, fun i => ⟨1000 + (i : Int), GetCompact 28⟩⟩

/-- Parameters for the relaxation counterexample: relaxation enabled,
legacy algorithm governs every height below 1000. -/
def cexP4 : Params :=
  { powLimit := 2 ^ 240
    BCDBeginPowLimit := 2 ^ 224
    BCDHeight := 1000
    ZawyLWMAHeight := 1000
    nPowTargetSpacing := 600
    nPowTargetTimespan := 2400
    nZawyLwmaAveragingWindow := 3
    nZawyLwmaMinDenominator := 3
    fPowAllowMinDifficultyBlocks := true
    fPowNoRetargeting := false }

/-- Chain for the relaxation counterexample: tip at height 3, which makes
the next height 4 a boundary of the effective interval 4. -/
def cexCh4 : Chain := ⟨3, fun i => ⟨1000 + 600 * (i : Int), GetCompact (2 ^ 100)⟩⟩

/-- Parameters for the ceiling counterexample: the ceiling `2 ^ 200` is
below what the chain's stored bits decode to. -/
def cexP8 : Params :=
  { powLimit := 2 ^ 200
    BCDBeginPowLimit := 2 ^ 224
    BCDHeight := 1000
    ZawyLWMAHeight := 1000
    nPowTargetSpacing := 600
    nPowTargetTimespan := 2400
    nZawyLwmaAveragingWindow := 3
    nZawyLwmaMinDenominator := 3
    fPowAllowMinDifficultyBlocks := false
    fPowNoRetargeting := false }

/-- Chain for the ceiling counterexample: every block's bits decode to
`2 ^ 210`, above the ceiling of `cexP8`. -/
def cexCh8 : Chain := ⟨5, fun i => ⟨1000 + 600 * (i : Int), GetCompact (2 ^ 210)⟩⟩

/-- Characterization of the fuel-based byte length: within fuel, the value lies strictly below `256 ^ byteLen` and at or above `256 ^ (byteLen - 1)`. -/
theorem byteLenF_spec : ∀ f x, x < 256 ^ f →
    x < 256 ^ byteLenF f x ∧ byteLenF f x ≤ f ∧ (x ≠ 0 → 256 ^ (byteLenF f x - 1) ≤ x) := by
  intro f
  induction f with
  | zero =>
    intro x hx
    have hx0 : x = 0 := by simpa using hx
    subst hx0
    simp [byteLenF]
  | succ f ih =>
    intro x hx
    by_cases h0 : x = 0
    · subst h0
      simp [byteLenF]
    · simp only [byteLenF, if_neg h0]
      have hdiv : x / 256 < 256 ^ f := by
        rw [Nat.div_lt_iff_lt_mul (by norm_num)]
        calc x < 256 ^ (f + 1) := hx
        _ = 256 ^ f * 256 := by ring
      obtain ⟨ih1, ih2, ih3⟩ := ih (x / 256) hdiv
      refine ⟨?_, by omega, ?_⟩
      · have hstep : x < (x / 256 + 1) * 256 := by omega
        have hle : x / 256 + 1 ≤ 256 ^ byteLenF f (x / 256) := ih1
        calc x < (x / 256 + 1) * 256 := hstep
        _ ≤ 256 ^ byteLenF f (x / 256) * 256 := by
              exact Nat.mul_le_mul_right 256 hle
        _ = 256 ^ (byteLenF f (x / 256) + 1) := by ring
      · intro _
        by_cases hq : x / 256 = 0
        · have hz : byteLenF f 0 = 0 := by cases f <;> simp [byteLenF]
          rw [hq, hz]
          simpa using Nat.one_le_iff_ne_zero.mpr h0
        · have h3 := ih3 hq
          have hB : byteLenF f (x / 256) ≠ 0 := by
            intro hB0
            rw [hB0] at ih1
            simp at ih1
            omega
          have hstep : 256 ^ (byteLenF f (x / 256) - 1) * 256 ≤ x / 256 * 256 :=
            Nat.mul_le_mul_right 256 h3
          have hpow : 256 ^ (byteLenF f (x / 256) - 1) * 256 = 256 ^ byteLenF f (x / 256) := by
            rw [← pow_succ]
            congr 1
            omega
          have hdm : x / 256 * 256 ≤ x := Nat.div_mul_le_self x 256
          simp only [Nat.add_sub_cancel]
          omega

/-- Byte-length bounds for every 256-bit value. -/
theorem byteLen_spec {x : Nat} (hx : x < 2 ^ 256) :
    x < 256 ^ byteLen x ∧ byteLen x ≤ 32 ∧ (x ≠ 0 → 256 ^ (byteLen x - 1) ≤ x) := by
  simp only [byteLen]
  have h256 : (2 : Nat) ^ 256 = 256 ^ 32 := by norm_num
  have hx64 : x < 256 ^ 64 := by
    calc x < 2 ^ 256 := hx
    _ = 256 ^ 32 := h256
    _ ≤ 256 ^ 64 := Nat.pow_le_pow_right (by norm_num) (by norm_num)
  obtain ⟨h1, h2, h3⟩ := byteLenF_spec 64 x hx64
  refine ⟨h1, ?_, h3⟩
  by_contra hgt
  push_neg at hgt
  have hx0 : x ≠ 0 := by
    intro h0
    subst h0
    simp [byteLenF] at hgt
  have hlow := h3 hx0
  have hmono : (256 : Nat) ^ 32 ≤ 256 ^ (byteLenF 64 x - 1) :=
    Nat.pow_le_pow_right (by norm_num) (by omega)
  omega

/-- Decoding a compact value assembled from a 23-bit mantissa and an exponent byte recovers the scaled mantissa. -/
theorem SetCompact_decode (w e : Nat) (hw : w < 2 ^ 23) :
    SetCompact (w + e * 2 ^ 24) =
      if e ≤ 3 then w / 256 ^ (3 - e) else w * 256 ^ (e - 3) % 2 ^ 256 := by
  have hsize : (w + e * 2 ^ 24) / 2 ^ 24 = e := by omega
  have hword : (w + e * 2 ^ 24) % 2 ^ 23 = w := by omega
  simp only [SetCompact, hsize, hword]

/-- Round-down law of the codec: decoding the canonical encoding of a 256-bit value never exceeds the value (the 3-byte mantissa truncates low bytes). -/
theorem SetCompact_GetCompact_le {x : Nat} (hx : x < 2 ^ 256) :
    SetCompact (GetCompact x) ≤ x := by
  obtain ⟨h1, _, _⟩ := byteLen_spec hx
  simp only [GetCompact]
  set s := byteLen x with hs
  set compact := (if s ≤ 3 then x * 256 ^ (3 - s) else x / 256 ^ (s - 3)) with hc
  have hclt : compact < 2 ^ 24 := by
    rw [hc]
    split_ifs with hle
    · calc x * 256 ^ (3 - s) < 256 ^ s * 256 ^ (3 - s) :=
            (Nat.mul_lt_mul_right (pow_pos (by norm_num) _)).mpr h1
      _ = 256 ^ 3 := by rw [← pow_add]; congr 1; omega
      _ = 2 ^ 24 := by norm_num
    · rw [Nat.div_lt_iff_lt_mul (pow_pos (by norm_num) _)]
      calc x < 256 ^ s := h1
      _ = 256 ^ 3 * 256 ^ (s - 3) := by rw [← pow_add]; congr 1; omega
      _ = 2 ^ 24 * 256 ^ (s - 3) := by norm_num
  have hge3 : 3 ≤ s → compact * 256 ^ (s - 3) ≤ x := by
    intro h3s
    rw [hc]
    split_ifs with hle
    · have hs3 : s = 3 := le_antisymm hle h3s
      simp [hs3]
    · exact Nat.div_mul_le_self x _
  split_ifs with hbit
  · have hw : compact / 256 < 2 ^ 23 := by omega
    rw [SetCompact_decode _ _ hw]
    split_ifs with hle2
    · have hsle : s ≤ 3 := by omega
      rw [hc, if_pos hsle, Nat.div_div_eq_div_mul]
      have hpow : 256 * 256 ^ (3 - (s + 1)) = 256 ^ (3 - s) := by
        rw [← pow_succ']
        congr 1
        omega
      rw [hpow, Nat.mul_div_cancel x (pow_pos (by norm_num) _)]
    · have h3s : 3 ≤ s := by omega
      calc compact / 256 * 256 ^ (s + 1 - 3) % 2 ^ 256
          ≤ compact / 256 * 256 ^ (s + 1 - 3) := Nat.mod_le _ _
      _ = compact / 256 * 256 * 256 ^ (s - 3) := by
            rw [mul_assoc]
            congr 1
            rw [← pow_succ']
            congr 1
            omega
      _ ≤ compact * 256 ^ (s - 3) :=
            Nat.mul_le_mul_right _ (Nat.div_mul_le_self compact 256)
      _ ≤ x := hge3 h3s
  · have hw : compact < 2 ^ 23 := by omega
    rw [SetCompact_decode _ _ hw]
    split_ifs with hle2
    · rw [hc, if_pos hle2]
      exact le_of_eq (Nat.mul_div_cancel x (pow_pos (by norm_num) _))
    · calc compact * 256 ^ (s - 3) % 2 ^ 256 ≤ compact * 256 ^ (s - 3) := Nat.mod_le _ _
      _ ≤ x := hge3 (by omega)

/-- Gauss sum for the triangular numbers. -/
theorem triangle_gauss : ∀ n, 2 * triangle n = n * (n + 1) := by
  intro n
  induction n with
  | zero => rfl
  | succ n ih => simp only [triangle]; ring_nf; ring_nf at ih; omega

/-- Triangular numbers of positive arguments are positive. -/
theorem triangle_pos {n : Nat} (h : 1 ≤ n) : 1 ≤ triangle n := by
  cases n with
  | zero => omega
  | succ n => simp only [triangle]; omega

/-- A triangular number dominates its index. -/
theorem triangle_ge : ∀ n : Nat, n ≤ triangle n := by
  intro n
  induction n with
  | zero => simp [triangle]
  | succ n ih => simp only [triangle]; omega

/-- The 32-bit wrap is the identity on in-range values. -/
theorem wrap32_eq_self {x : Int} (h1 : -(2 ^ 31) ≤ x) (h2 : x < 2 ^ 31) : wrap32 x = x := by
  have hm : (x + 2 ^ 31) % 2 ^ 32 = x + 2 ^ 31 := Int.emod_eq_of_lt (by omega) (by omega)
  simp only [wrap32, hm]
  omega

/-- `Int.toNat` distributes over products of nonnegative factors. -/
theorem intToNat_mul {a b : Int} (ha : 0 ≤ a) (hb : 0 ≤ b) :
    (a * b).toNat = a.toNat * b.toNat := by
  rcases Int.eq_ofNat_of_zero_le ha with ⟨m, rfl⟩
  rcases Int.eq_ofNat_of_zero_le hb with ⟨n, rfl⟩
  rw [← Int.natCast_mul, Int.toNat_natCast, Int.toNat_natCast, Int.toNat_natCast]

/-- The predecessor walk returns the bits of the topmost block at which the walk condition breaks (genesis reached, boundary height, or bits different from the ceiling encoding), and every block strictly above it satisfies the walk condition. -/
theorem walkMinDifficulty_spec (ch : Chain) (dai : Int) (L : Nat) :
    ∀ h, ∃ j, j ≤ h ∧
      (j = 0 ∨ ((j : Nat) : Int) % dai = 0 ∨ (ch.block j).bits ≠ L) ∧
      (∀ m, j < m → m ≤ h → ((m : Nat) : Int) % dai ≠ 0 ∧ (ch.block m).bits = L) ∧
      walkMinDifficulty ch dai L h = (ch.block j).bits := by
  intro h
  induction h with
  | zero =>
    refine ⟨0, le_refl 0, Or.inl rfl, ?_, by simp [walkMinDifficulty]⟩
    intro m h1 h2
    omega
  | succ h ih =>
    by_cases hcond : ((h + 1 : Nat) : Int) % dai ≠ 0 ∧ (ch.block (h + 1)).bits = L
    · obtain ⟨j, hj1, hj2, hj3, hj4⟩ := ih
      refine ⟨j, by omega, hj2, ?_, ?_⟩
      · intro m hm1 hm2
        by_cases hm : m = h + 1
        · subst hm; exact hcond
        · exact hj3 m hm1 (by omega)
      · simp only [walkMinDifficulty, if_pos hcond]
        exact hj4
    · refine ⟨h + 1, le_refl _, ?_, ?_, ?_⟩
      · by_cases hz : ((h + 1 : Nat) : Int) % dai = 0
        · exact Or.inr (Or.inl hz)
        · refine Or.inr (Or.inr ?_)
          intro hbits
          exact hcond ⟨hz, hbits⟩
      · intro m h1 h2
        omega
      · simp only [walkMinDifficulty, if_neg hcond]

/-- The two revisions of the LWMA window loop compute identical results. -/
theorem lwmaLoop0_eq_lwmaLoop (ch : Chain) (T kN : Int) :
    ∀ (r i : Nat) (prevTs w s : Int) (a : Nat),
      lwmaLoop0 ch T kN r i prevTs w s a = lwmaLoop ch T kN r i prevTs w s a := by
  intro r
  induction r with
  | zero => intro i prevTs w s a; rfl
  | succ r ih =>
    intro i prevTs w s a
    simp only [lwmaLoop0, lwmaLoop]
    exact ih _ _ _ _ _

/-- Closed form of the LWMA window loop on a constant-bits chain with block times in arithmetic progression of step `T`: the weighted solvetime sum is the triangular sum and the target accumulator adds `r` equal terms; the 32-bit accumulators never wrap under the stated bounds. -/
theorem lwmaLoop_steady (ch : Chain) (T kN : Int) (c : Nat) (hT : 1 ≤ T) :
    ∀ (r i : Nat) (prevTs w s : Int) (a : Nat),
      (∀ j, i ≤ j → j < i + r → (ch.block j).bits = c) →
      (∀ j, i ≤ j → j < i + r →
        (ch.block j).time = prevTs + ((j - i + 1 : Nat) : Int) * T) →
      0 ≤ w → 0 ≤ s →
      s + T * ((r : Int) * w + (triangle r : Int)) < 2 ^ 31 →
      w + (r : Int) < 2 ^ 31 →
      lwmaLoop ch T kN r i prevTs w s a =
        (s + T * ((r : Int) * w + (triangle r : Int)),
          a + r * (SetCompact c / kN.toNat)) := by
  intro r
  induction r with
  | zero =>
    intro i prevTs w s a _ _ _ _ _ _
    simp [lwmaLoop, triangle]
  | succ r ih =>
    intro i prevTs w s a hbits htime hw hs hbound hwbound
    have hti : (ch.block i).time = prevTs + T := by
      have := htime i (le_refl i) (by omega)
      simpa using this
    have hbi : (ch.block i).bits = c := hbits i (le_refl i) (by omega)
    have htri : (1 : Int) ≤ (triangle (r + 1) : Int) := by
      exact_mod_cast triangle_pos (by omega)
    have htri_succ : (triangle (r + 1) : Int) = (triangle r : Int) + (r : Int) + 1 := by
      simp only [triangle]
      push_cast
      ring
    have hcast : ((r + 1 : Nat) : Int) = (r : Int) + 1 := by push_cast; ring
    have hrnn : (0 : Int) ≤ (r : Int) := Int.natCast_nonneg r
    have hTnn : (0 : Int) ≤ T := by omega
    have hcoef : w + 1 ≤ ((r : Int) + 1) * w + (triangle (r + 1) : Int) := by
      nlinarith [hw, htri, hrnn]
    have hstep_le : T * (w + 1) ≤ T * (((r : Int) + 1) * w + (triangle (r + 1) : Int)) :=
      mul_le_mul_of_nonneg_left hcoef hTnn
    have hexp : T * (w + 1) + T * ((r : Int) * (w + 1) + (triangle r : Int)) =
        T * (((r : Int) + 1) * w + (triangle (r + 1) : Int)) := by
      rw [htri_succ]; ring
    have hsum_nn : 0 ≤ s + T * (w + 1) := by
      have : 0 ≤ T * (w + 1) := mul_nonneg hTnn (by omega)
      omega
    have hbound1 : s + T * (((r : Int) + 1) * w + (triangle (r + 1) : Int)) < 2 ^ 31 := by
      rw [hcast] at hbound
      exact hbound
    have hbound2 : s + T * (w + 1) + T * ((r : Int) * (w + 1) + (triangle r : Int)) < 2 ^ 31 := by
      omega
    have hsum_lt : s + T * (w + 1) < 2 ^ 31 := by
      have hnn2 : 0 ≤ T * ((r : Int) * (w + 1) + (triangle r : Int)) := by
        have ht1 : (0 : Int) ≤ (triangle r : Int) := Int.natCast_nonneg _
        have ht2 : (0 : Int) ≤ (r : Int) * (w + 1) := mul_nonneg hrnn (by omega)
        exact mul_nonneg hTnn (by omega)
      omega
    simp only [lwmaLoop, hti, hbi]
    rw [if_pos (by omega : prevTs + T > prevTs)]
    have hmin : min (6 * T) (prevTs + T - prevTs) = T := by omega
    rw [hmin]
    rw [wrap32_eq_self (by omega) (by omega : w + 1 < 2 ^ 31)]
    rw [wrap32_eq_self (by omega) hsum_lt]
    rw [ih (i + 1) (prevTs + T) (w + 1) (s + T * (w + 1)) (a + SetCompact c / kN.toNat)
      (by
        intro j hj1 hj2
        exact hbits j (by omega) (by omega))
      (by
        intro j hj1 hj2
        have hj := htime j (by omega) (by omega)
        have hsub : (j - i + 1 : Nat) = (j - (i + 1) + 1) + 1 := by omega
        rw [hsub] at hj
        push_cast at hj ⊢
        linarith [hj])
      (by omega) hsum_nn hbound2 (by omega)]
    simp only [Prod.mk.injEq]
    constructor
    · rw [hcast]
      omega
    · ring

/-- Block times with constant consecutive difference form an arithmetic progression. -/
theorem time_ap (ch : Chain) (T : Int) (base top : Nat)
    (h : ∀ j, base ≤ j → j < top → (ch.block (j + 1)).time = (ch.block j).time + T) :
    ∀ j, base ≤ j → j ≤ top →
      (ch.block j).time = (ch.block base).time + ((j - base : Nat) : Int) * T := by
  intro j hj1
  induction j, hj1 using Nat.le_induction with
  | base => intro _; simp
  | succ n hn ih =>
    intro htop
    have ht := h n hn (by omega)
    rw [ht, ih (by omega)]
    have hsub : (n + 1 - base : Nat) = (n - base) + 1 := by omega
    rw [hsub]
    push_cast
    ring

/-- The two sequential clamps keep the actual timespan between `timespan / limit` and `timespan * limit`. -/
theorem clampTimespan_bounds (actual ts limit : Int) (hts : 0 < ts) (hl : 1 ≤ limit) :
    ts / limit ≤ clampTimespan actual ts limit ∧ clampTimespan actual ts limit ≤ ts * limit := by
  have hd : ts / limit ≤ ts := Int.ediv_le_self limit (le_of_lt hts)
  have hm : ts ≤ ts * limit := le_mul_of_one_le_right (le_of_lt hts) hl
  simp only [clampTimespan]
  generalize ts / limit = q at *
  generalize ts * limit = M at *
  split_ifs <;> omega

/-- C1: dispatcher priority. At height `h = tipHeight + 1`, GetNextWorkRequired returns the compact encoding of powLimit when `h = BCDHeight`, the compact encoding of BCDBeginPowLimit when `h = BCDHeight + 1`, delegates to the legacy periodic retarget when `h < ZawyLWMAHeight` otherwise, and delegates to the LWMA retarget in the remaining case; the two fixed-height rules are checked first and need no side conditions, so they take priority over both adaptive algorithms. -/
theorem GetNextWorkRequired_dispatch (ch : Chain) (pblockTime : Int) (p : Params) :
    (ch.tipHeight + 1 = p.BCDHeight →
      GetNextWorkRequired ch pblockTime p = GetCompact p.powLimit) ∧
    (ch.tipHeight + 1 = p.BCDHeight + 1 →
      GetNextWorkRequired ch pblockTime p = GetCompact p.BCDBeginPowLimit) ∧
    (ch.tipHeight + 1 ≠ p.BCDHeight → ch.tipHeight + 1 ≠ p.BCDHeight + 1 →
      ch.tipHeight + 1 < p.ZawyLWMAHeight →
      GetNextWorkRequired ch pblockTime p = BCDGetNextWorkRequired ch pblockTime p) ∧
    (ch.tipHeight + 1 ≠ p.BCDHeight → ch.tipHeight + 1 ≠ p.BCDHeight + 1 →
      ¬ ch.tipHeight + 1 < p.ZawyLWMAHeight →
      GetNextWorkRequired ch pblockTime p = LwmaGetNextWorkRequired ch pblockTime p) := by
  refine ⟨?_, ?_, ?_, ?_⟩
  · intro h
    simp only [GetNextWorkRequired, if_pos h]
  · intro h
    simp only [GetNextWorkRequired]
    rw [if_neg (by omega), if_pos h]
  · intro h1 h2 h3
    simp only [GetNextWorkRequired]
    rw [if_neg h1, if_neg h2, if_pos h3]
  · intro h1 h2 h3
    simp only [GetNextWorkRequired]
    rw [if_neg h1, if_neg h2, if_neg h3]

/-- Witness for C1 at the four dispatch regions of concrete parameters with BCDHeight 10 and ZawyLWMAHeight 20. -/
theorem GetNextWorkRequired_dispatch_witness :
    (GetNextWorkRequired (wChain 9) 0 wParams = GetCompact wParams.powLimit) ∧
    (GetNextWorkRequired (wChain 10) 0 wParams = GetCompact wParams.BCDBeginPowLimit) ∧
    (GetNextWorkRequired (wChain 13) 0 wParams = BCDGetNextWorkRequired (wChain 13) 0 wParams) ∧
    (GetNextWorkRequired (wChain 25) 0 wParams = LwmaGetNextWorkRequired (wChain 25) 0 wParams) :=
  ⟨(GetNextWorkRequired_dispatch (wChain 9) 0 wParams).1 (by decide),
   (GetNextWorkRequired_dispatch (wChain 10) 0 wParams).2.1 (by decide),
   (GetNextWorkRequired_dispatch (wChain 13) 0 wParams).2.2.1 (by decide) (by decide) (by decide),
   (GetNextWorkRequired_dispatch (wChain 25) 0 wParams).2.2.2 (by decide) (by decide) (by decide)⟩

/-- C2: the proof-of-work verifier returns false exactly when decode signals negative or overflow, the decoded target is zero, the target exceeds powLimit, or the hash exceeds the target; in particular it accepts a hash equal to a valid target and rejects the target plus one. The embedding is a pure function, so the no-side-effects part holds by construction. -/
theorem CheckProofOfWork_spec (hash nBits : Nat) (p : Params) :
    (CheckProofOfWork hash nBits p = false ↔
      (SetCompactNegative nBits = true ∨ SetCompactOverflow nBits = true ∨
        SetCompact nBits = 0 ∨ p.powLimit < SetCompact nBits ∨
        SetCompact nBits < hash)) ∧
    (SetCompactNegative nBits = false → SetCompactOverflow nBits = false →
      SetCompact nBits ≠ 0 → SetCompact nBits ≤ p.powLimit →
      CheckProofOfWork (SetCompact nBits) nBits p = true) ∧
    CheckProofOfWork (SetCompact nBits + 1) nBits p = false := by
  refine ⟨?_, ?_, ?_⟩
  · simp only [CheckProofOfWork]
    split_ifs with h1 h2
    · simp only [true_iff]
      tauto
    · simp only [true_iff]
      tauto
    · simp only [false_iff]
      push_neg at h1 ⊢
      obtain ⟨ha, hb, hc, hd⟩ := h1
      push_neg at h2
      exact ⟨by simpa using ha, by simpa using hc, hb, by omega, by omega⟩
  · intro hn ho hz hle
    simp only [CheckProofOfWork]
    rw [if_neg, if_neg (by omega)]
    push_neg
    refine ⟨by simp [hn], by omega, by simp [ho], by omega⟩
  · simp only [CheckProofOfWork]
    split_ifs with h1 h2
    · rfl
    · rfl
    · exact absurd (by omega) h2

/-- Witness for C2: a concrete valid target is accepted at the target and rejected at target plus one. -/
theorem CheckProofOfWork_spec_witness :
    CheckProofOfWork (SetCompact (GetCompact (2 ^ 100))) (GetCompact (2 ^ 100)) wParams = true ∧
    CheckProofOfWork (SetCompact (GetCompact (2 ^ 100)) + 1) (GetCompact (2 ^ 100)) wParams =
      false :=
  ⟨(CheckProofOfWork_spec 0 (GetCompact (2 ^ 100)) wParams).2.1 (by decide) (by decide)
      (by decide) (by decide),
   (CheckProofOfWork_spec 0 (GetCompact (2 ^ 100)) wParams).2.2⟩

/-- C3 (amended): on a retarget boundary with `limit` dividing the timespan (true of the post-fork configuration `72 * spacing, limit 2` and of the standard pre-fork parameters), the exact retarget value `old * clampedActual / timespan` lies within `[old / limit, old * limit]`, and the returned value is the ceiling-clamped minimum, hence never exceeds powLimit. The claim's lower bound fails as stated when `limit` does not divide the timespan (see the counterexample), because the clamped lower timespan `timespan / limit` rounds down. -/
theorem CalculateNextWork_bounds (ch : Chain) (nFirstBlockTime : Int) (p : Params)
    (ts limit : Int) (v : Nat)
    (htl : retargetTimespanLimit ch p = (ts, limit))
    (hts : 0 < ts)
    (hdvd : limit ∣ ts)
    (hv : v = SetCompact (ch.block ch.tipHeight).bits *
      (clampTimespan ((ch.block ch.tipHeight).time - nFirstBlockTime) ts limit).toNat /
      ts.toNat) :
    SetCompact (ch.block ch.tipHeight).bits / limit.toNat ≤ v ∧
    v ≤ SetCompact (ch.block ch.tipHeight).bits * limit.toNat ∧
    CalculateNextWorkValue ch nFirstBlockTime p = min v p.powLimit ∧
    CalculateNextWorkValue ch nFirstBlockTime p ≤ p.powLimit := by
  have hlim : limit = 2 ∨ limit = 4 := by
    have h := htl
    simp only [retargetTimespanLimit] at h
    split_ifs at h
    · rw [Prod.mk.injEq] at h
      exact Or.inl h.2.symm
    · rw [Prod.mk.injEq] at h
      exact Or.inr h.2.symm
  have hl1 : (1 : Int) ≤ limit := by omega
  obtain ⟨hclo, hchi⟩ :=
    clampTimespan_bounds ((ch.block ch.tipHeight).time - nFirstBlockTime) ts limit hts hl1
  set old := SetCompact (ch.block ch.tipHeight).bits with hold
  set a := clampTimespan ((ch.block ch.tipHeight).time - nFirstBlockTime) ts limit with ha
  obtain ⟨m, hm⟩ := hdvd
  have hmpos : 0 < m := by nlinarith [hm, hts, hl1]
  have hdiv_eq : ts / limit = m := by
    rw [hm]
    exact Int.mul_ediv_cancel_left m (by omega)
  have htsn : ts.toNat = limit.toNat * m.toNat := by
    rw [hm]
    exact intToNat_mul (by omega) (by omega)
  have hanat_lo : m.toNat ≤ a.toNat := by
    apply Int.toNat_le_toNat
    rw [← hdiv_eq]
    exact hclo
  have hanat_hi : a.toNat ≤ ts.toNat * limit.toNat := by
    have h := Int.toNat_le_toNat hchi
    rwa [intToNat_mul (by omega) (by omega)] at h
  have hb1 : old / limit.toNat ≤ v := by
    rw [hv]
    calc old / limit.toNat = old * m.toNat / (limit.toNat * m.toNat) := by
          rw [Nat.mul_div_mul_right _ _ (by omega : 0 < m.toNat)]
    _ = old * m.toNat / ts.toNat := by rw [htsn]
    _ ≤ old * a.toNat / ts.toNat :=
          Nat.div_le_div_right (Nat.mul_le_mul_left old hanat_lo)
  have hb2 : v ≤ old * limit.toNat := by
    rw [hv]
    calc old * a.toNat / ts.toNat ≤ old * (ts.toNat * limit.toNat) / ts.toNat :=
          Nat.div_le_div_right (Nat.mul_le_mul_left old hanat_hi)
    _ = old * limit.toNat * ts.toNat / ts.toNat := by ring_nf
    _ = old * limit.toNat := Nat.mul_div_cancel _ (by omega : 0 < ts.toNat)
  have hval : CalculateNextWorkValue ch nFirstBlockTime p = min v p.powLimit := by
    simp only [CalculateNextWorkValue, htl]
    rw [← hold, ← ha, ← hv]
    split_ifs with h <;> omega
  refine ⟨hb1, hb2, hval, ?_⟩
  rw [hval]
  omega

/-- Witness for C3 (amended) at the post-fork configuration: timespan 43200, limit 2, old target `2 ^ 100`, retarget value `2 ^ 99`. -/
theorem CalculateNextWork_bounds_witness :
    SetCompact ((wChain 13).block (wChain 13).tipHeight).bits / (2 : Int).toNat ≤ 2 ^ 99 ∧
    2 ^ 99 ≤ SetCompact ((wChain 13).block (wChain 13).tipHeight).bits * (2 : Int).toNat ∧
    CalculateNextWorkValue (wChain 13) 1000 wParams = min (2 ^ 99) wParams.powLimit ∧
    CalculateNextWorkValue (wChain 13) 1000 wParams ≤ wParams.powLimit :=
  CalculateNextWork_bounds (wChain 13) 1000 wParams 43200 2 (2 ^ 99) (by decide) (by decide)
    (by decide) (by decide)

/-- Counterexample to C3 as stated: with pre-fork timespan 7 and limit 4, an old target of 28 and a clamped actual timespan of 1 give the retarget value `28 * 1 / 7 = 4`, strictly below `oldTarget / limit = 7`, so the computed value falls outside `[oldTarget / limit, oldTarget * limit]`. -/
theorem CalculateNextWork_bounds_cex :
    retargetTimespanLimit cexCh3 cexP3 = (7, 4) ∧
    SetCompact ((cexCh3.block cexCh3.tipHeight).bits) = 28 ∧
    CalculateNextWorkValue cexCh3 1002 cexP3 = 4 ∧
    CalculateNextWorkRequired cexCh3 1002 cexP3 = GetCompact 4 ∧
    ¬ SetCompact ((cexCh3.block cexCh3.tipHeight).bits) / 4 ≤
        CalculateNextWorkValue cexCh3 1002 cexP3 := by
  refine ⟨by decide, by decide, by decide, by decide, by decide⟩

/-- C4 (amended): with the relaxation toggle enabled and a candidate block time more than twice the spacing past the last block time, a dispatcher call returns the secondary ceiling encoding whenever LWMA governs the height, and the powLimit encoding whenever the legacy algorithm governs a non-boundary height; at legacy retarget boundaries the relaxation does not apply (see the counterexample), so the claim's "regardless of the retarget boundary state" fails as stated. -/
theorem relaxation_rule (ch : Chain) (pblockTime : Int) (p : Params)
    (hrelax : p.fPowAllowMinDifficultyBlocks = true)
    (hgap : pblockTime > (ch.block ch.tipHeight).time + p.nPowTargetSpacing * 2)
    (hno1 : ch.tipHeight + 1 ≠ p.BCDHeight)
    (hno2 : ch.tipHeight + 1 ≠ p.BCDHeight + 1) :
    (¬ ch.tipHeight + 1 < p.ZawyLWMAHeight →
      GetNextWorkRequired ch pblockTime p = GetCompact p.BCDBeginPowLimit) ∧
    (ch.tipHeight + 1 < p.ZawyLWMAHeight →
      ((bcdHeightInterval ch p).1 : Int) % (bcdHeightInterval ch p).2 ≠ 0 →
      GetNextWorkRequired ch pblockTime p = GetCompact p.powLimit) := by
  constructor
  · intro hlw
    simp only [GetNextWorkRequired]
    rw [if_neg hno1, if_neg hno2, if_neg hlw]
    have hc : p.fPowAllowMinDifficultyBlocks = true ∧
        pblockTime > (ch.block ch.tipHeight).time + p.nPowTargetSpacing * 2 := ⟨hrelax, hgap⟩
    simp only [LwmaGetNextWorkRequired, if_pos hc]
  · intro hlw hnb
    simp only [GetNextWorkRequired]
    rw [if_neg hno1, if_neg hno2, if_pos hlw]
    simp only [BCDGetNextWorkRequired, if_pos hnb, hrelax, if_true, if_pos hgap]

/-- Witness for C4 (amended): an LWMA-governed height returning the secondary ceiling and a legacy non-boundary height returning powLimit. -/
theorem relaxation_rule_witness :
    (GetNextWorkRequired (wChain 25) 99999 wParamsRelax =
      GetCompact wParamsRelax.BCDBeginPowLimit) ∧
    (GetNextWorkRequired (wChain 5) 99999 wParamsRelax = GetCompact wParamsRelax.powLimit) :=
  ⟨(relaxation_rule (wChain 25) 99999 wParamsRelax rfl (by decide) (by decide) (by decide)).1
      (by decide),
   (relaxation_rule (wChain 5) 99999 wParamsRelax rfl (by decide) (by decide) (by decide)).2
      (by decide) (by decide)⟩

/-- Counterexample to C4 as stated: relaxation enabled and the time gap triggered, but the height is a legacy retarget boundary, and the dispatcher returns neither ceiling encoding — it runs the periodic retarget instead. -/
theorem relaxation_rule_cex :
    cexP4.fPowAllowMinDifficultyBlocks = true ∧
    (4001 : Int) > (cexCh4.block cexCh4.tipHeight).time + cexP4.nPowTargetSpacing * 2 ∧
    GetNextWorkRequired cexCh4 4001 cexP4 ≠ GetCompact cexP4.powLimit ∧
    GetNextWorkRequired cexCh4 4001 cexP4 ≠ GetCompact cexP4.BCDBeginPowLimit := by
  refine ⟨rfl, by decide, by decide, by decide⟩

/-- C5: off a retarget boundary of the effective height and interval, the legacy retarget returns the last block's bits unchanged when relaxation is disabled; when relaxation is enabled and the time-gap rule does not fire, it returns the bits of the topmost block at which the predecessor walk breaks — the walk continuing while the block has a predecessor, its height is not a multiple of DifficultyAdjustmentInterval, and its bits equal the compact encoding of powLimit. -/
theorem BCD_nonboundary (ch : Chain) (pblockTime : Int) (p : Params)
    (hnb : ((bcdHeightInterval ch p).1 : Int) % (bcdHeightInterval ch p).2 ≠ 0) :
    (p.fPowAllowMinDifficultyBlocks = false →
      BCDGetNextWorkRequired ch pblockTime p = (ch.block ch.tipHeight).bits) ∧
    (p.fPowAllowMinDifficultyBlocks = true →
      ¬ pblockTime > (ch.block ch.tipHeight).time + p.nPowTargetSpacing * 2 →
      ∃ j, j ≤ ch.tipHeight ∧
        (j = 0 ∨ ((j : Nat) : Int) % p.DifficultyAdjustmentInterval = 0 ∨
          (ch.block j).bits ≠ GetCompact p.powLimit) ∧
        (∀ m, j < m → m ≤ ch.tipHeight →
          ((m : Nat) : Int) % p.DifficultyAdjustmentInterval ≠ 0 ∧
          (ch.block m).bits = GetCompact p.powLimit) ∧
        BCDGetNextWorkRequired ch pblockTime p = (ch.block j).bits) := by
  constructor
  · intro hflag
    simp only [BCDGetNextWorkRequired, if_pos hnb, hflag, Bool.false_eq_true, if_false]
  · intro hflag hgap
    simp only [BCDGetNextWorkRequired, if_pos hnb, hflag, if_true, if_neg hgap]
    obtain ⟨j, hj1, hj2, hj3, hj4⟩ :=
      walkMinDifficulty_spec ch p.DifficultyAdjustmentInterval (GetCompact p.powLimit)
        ch.tipHeight
    exact ⟨j, hj1, hj2, hj3, hj4⟩

/-- Witness for C5 at a non-boundary height, with relaxation disabled and enabled. -/
theorem BCD_nonboundary_witness :
    (BCDGetNextWorkRequired (wChain 5) 0 wParams = ((wChain 5).block (wChain 5).tipHeight).bits) ∧
    (∃ j, j ≤ (wChain 5).tipHeight ∧
      (j = 0 ∨ ((j : Nat) : Int) % wParamsRelax.DifficultyAdjustmentInterval = 0 ∨
        ((wChain 5).block j).bits ≠ GetCompact wParamsRelax.powLimit) ∧
      (∀ m, j < m → m ≤ (wChain 5).tipHeight →
        ((m : Nat) : Int) % wParamsRelax.DifficultyAdjustmentInterval ≠ 0 ∧
        ((wChain 5).block m).bits = GetCompact wParamsRelax.powLimit) ∧
      BCDGetNextWorkRequired (wChain 5) 0 wParamsRelax = ((wChain 5).block j).bits) :=
  ⟨(BCD_nonboundary (wChain 5) 0 wParams (by decide)).1 rfl,
   (BCD_nonboundary (wChain 5) 0 wParamsRelax (by decide)).2 rfl (by decide)⟩

/-- C6: with retargeting active, a height below the averaging window makes the LWMA computation return the compact encoding of BCDBeginPowLimit directly — a chain-independent constant, so no ancestor block is read — and the same holds through LwmaGetNextWorkRequired when the relaxation rule does not fire. -/
theorem Lwma_bootstrap (ch : Chain) (pblockTime : Int) (p : Params)
    (hNR : p.fPowNoRetargeting = false)
    (hh : (ch.tipHeight : Int) < p.nZawyLwmaAveragingWindow) :
    LwmaCalculateNextWorkRequired ch p = GetCompact p.BCDBeginPowLimit ∧
    (¬ (p.fPowAllowMinDifficultyBlocks = true ∧
        pblockTime > (ch.block ch.tipHeight).time + p.nPowTargetSpacing * 2) →
      LwmaGetNextWorkRequired ch pblockTime p = GetCompact p.BCDBeginPowLimit) := by
  have h1 : LwmaCalculateNextWorkRequired ch p = GetCompact p.BCDBeginPowLimit := by
    simp only [LwmaCalculateNextWorkRequired, hNR, Bool.false_eq_true, if_false]
    rw [if_pos hh]
  refine ⟨h1, ?_⟩
  intro hrel
  simp only [LwmaGetNextWorkRequired, if_neg hrel]
  exact h1

/-- Witness for C6 at height 2 with window 3. -/
theorem Lwma_bootstrap_witness :
    LwmaCalculateNextWorkRequired (wChain 2) wParams = GetCompact wParams.BCDBeginPowLimit ∧
    LwmaGetNextWorkRequired (wChain 2) 0 wParams = GetCompact wParams.BCDBeginPowLimit :=
  ⟨(Lwma_bootstrap (wChain 2) 0 wParams rfl (by decide)).1,
   (Lwma_bootstrap (wChain 2) 0 wParams rfl (by decide)).2 (by decide)⟩

/-- C7: on a chain whose last N + 1 blocks all carry bits decoding to X, with consecutive block times exactly the nominal spacing apart, the LWMA retarget returns the compact encoding of `X - X % (k * N)` — that is, X lowered by strictly less than `k * N`, the precision lost by the per-term integer division, before the canonical compact encoding is applied. -/
theorem Lwma_steady_state (ch : Chain) (p : Params) (c X kN : Nat)
    (hNR : p.fPowNoRetargeting = false)
    (hT : 1 ≤ p.nPowTargetSpacing)
    (hN : 1 ≤ p.nZawyLwmaAveragingWindow)
    (hheight : p.nZawyLwmaAveragingWindow ≤ (ch.tipHeight : Int))
    (hk31 : p.nZawyLwmaAveragingWindow * (p.nZawyLwmaAveragingWindow + 1) *
      p.nPowTargetSpacing / 2 < 2 ^ 31)
    (hbits : ∀ j, ch.tipHeight - p.nZawyLwmaAveragingWindow.toNat ≤ j → j ≤ ch.tipHeight →
      (ch.block j).bits = c)
    (htime : ∀ j, ch.tipHeight - p.nZawyLwmaAveragingWindow.toNat ≤ j → j < ch.tipHeight →
      (ch.block (j + 1)).time = (ch.block j).time + p.nPowTargetSpacing)
    (hX : SetCompact c = X)
    (hXle : X ≤ p.BCDBeginPowLimit)
    (hkN : kN = (p.nZawyLwmaAveragingWindow * (p.nZawyLwmaAveragingWindow + 1) *
      p.nPowTargetSpacing / 2 * p.nZawyLwmaAveragingWindow).toNat) :
    LwmaCalculateNextWorkRequired ch p = GetCompact (X - X % kN) ∧
    X - X % kN ≤ X ∧ X < (X - X % kN) + kN := by
  have hNn : (p.nZawyLwmaAveragingWindow.toNat : Int) = p.nZawyLwmaAveragingWindow :=
    Int.toNat_of_nonneg (by omega)
  have hNn1 : 1 ≤ p.nZawyLwmaAveragingWindow.toNat := by omega
  have htipN : p.nZawyLwmaAveragingWindow.toNat ≤ ch.tipHeight := by omega
  have hgauss : (triangle p.nZawyLwmaAveragingWindow.toNat : Int) * 2 =
      p.nZawyLwmaAveragingWindow * (p.nZawyLwmaAveragingWindow + 1) := by
    have h2 : (2 : Int) * (triangle p.nZawyLwmaAveragingWindow.toNat : Int) =
        (p.nZawyLwmaAveragingWindow.toNat : Int) *
          ((p.nZawyLwmaAveragingWindow.toNat : Int) + 1) := by
      exact_mod_cast triangle_gauss p.nZawyLwmaAveragingWindow.toNat
    rw [hNn] at h2
    linarith
  have hkeq : p.nZawyLwmaAveragingWindow * (p.nZawyLwmaAveragingWindow + 1) *
      p.nPowTargetSpacing / 2 =
      (triangle p.nZawyLwmaAveragingWindow.toNat : Int) * p.nPowTargetSpacing := by
    rw [← hgauss, mul_comm (triangle p.nZawyLwmaAveragingWindow.toNat : Int) 2, mul_assoc]
    exact Int.mul_ediv_cancel_left _ (by norm_num)
  have htri1 : 1 ≤ triangle p.nZawyLwmaAveragingWindow.toNat := triangle_pos hNn1
  have htri1' : (1 : Int) ≤ (triangle p.nZawyLwmaAveragingWindow.toNat : Int) := by
    exact_mod_cast htri1
  have hk_pos : (1 : Int) ≤
      (triangle p.nZawyLwmaAveragingWindow.toNat : Int) * p.nPowTargetSpacing := by
    nlinarith
  have hkN' : kN = ((triangle p.nZawyLwmaAveragingWindow.toNat : Int) *
      p.nPowTargetSpacing).toNat * p.nZawyLwmaAveragingWindow.toNat := by
    rw [hkN, hkeq]
    rw [intToNat_mul (by omega) (by omega)]
  have hkN_pos : 1 ≤ kN := by
    rw [hkN']
    have h1 : 1 ≤ ((triangle p.nZawyLwmaAveragingWindow.toNat : Int) *
        p.nPowTargetSpacing).toNat := by omega
    calc 1 = 1 * 1 := rfl
    _ ≤ _ := Nat.mul_le_mul h1 hNn1
  have htriN : (p.nZawyLwmaAveragingWindow.toNat : Int) ≤
      (triangle p.nZawyLwmaAveragingWindow.toNat : Int) := by
    exact_mod_cast triangle_ge p.nZawyLwmaAveragingWindow.toNat
  have htriT : (triangle p.nZawyLwmaAveragingWindow.toNat : Int) ≤
      (triangle p.nZawyLwmaAveragingWindow.toNat : Int) * p.nPowTargetSpacing :=
    le_mul_of_one_le_right (by omega) hT
  have hk31' : (triangle p.nZawyLwmaAveragingWindow.toNat : Int) *
      p.nPowTargetSpacing < 2 ^ 31 := by
    rw [hkeq] at hk31
    exact hk31
  have hap := time_ap ch p.nPowTargetSpacing
    (ch.tipHeight - p.nZawyLwmaAveragingWindow.toNat) ch.tipHeight htime
  simp only [LwmaCalculateNextWorkRequired, hNR, Bool.false_eq_true, if_false]
  rw [if_neg (not_lt.mpr hheight)]
  rw [lwmaLoop_steady ch p.nPowTargetSpacing
      (p.nZawyLwmaAveragingWindow * (p.nZawyLwmaAveragingWindow + 1) *
        p.nPowTargetSpacing / 2 * p.nZawyLwmaAveragingWindow) c hT
      p.nZawyLwmaAveragingWindow.toNat
      (ch.tipHeight - p.nZawyLwmaAveragingWindow.toNat + 1)
      ((ch.block (ch.tipHeight - p.nZawyLwmaAveragingWindow.toNat)).time) 0 0 0
      (by
        intro j hj1 hj2
        exact hbits j (by omega) (by omega))
      (by
        intro j hj1 hj2
        have hj := hap j (by omega) (by omega)
        rw [hj]
        have hsub : (j - (ch.tipHeight - p.nZawyLwmaAveragingWindow.toNat) : Nat) =
            (j - (ch.tipHeight - p.nZawyLwmaAveragingWindow.toNat + 1) + 1 : Nat) := by
          omega
        rw [hsub])
      le_rfl le_rfl
      (by
        have : (0 : Int) + p.nPowTargetSpacing *
            ((p.nZawyLwmaAveragingWindow.toNat : Int) * 0 +
              (triangle p.nZawyLwmaAveragingWindow.toNat : Int)) =
            (triangle p.nZawyLwmaAveragingWindow.toNat : Int) * p.nPowTargetSpacing := by
          ring
        rw [this]
        exact hk31')
      (by omega)]
  dsimp only
  rw [hX]
  have hsumto : ((0 : Int) + p.nPowTargetSpacing *
      ((p.nZawyLwmaAveragingWindow.toNat : Int) * 0 +
        (triangle p.nZawyLwmaAveragingWindow.toNat : Int))).toNat =
      ((triangle p.nZawyLwmaAveragingWindow.toNat : Int) * p.nPowTargetSpacing).toNat := by
    congr 1
    ring
  rw [hsumto]
  have hdiv : (p.nZawyLwmaAveragingWindow * (p.nZawyLwmaAveragingWindow + 1) *
      p.nPowTargetSpacing / 2 * p.nZawyLwmaAveragingWindow).toNat = kN := hkN.symm
  rw [hdiv]
  have hvalue : (0 + p.nZawyLwmaAveragingWindow.toNat * (X / kN)) *
      ((triangle p.nZawyLwmaAveragingWindow.toNat : Int) * p.nPowTargetSpacing).toNat =
      kN * (X / kN) := by
    rw [hkN']
    ring
  rw [hvalue]
  have hdm := Nat.div_add_mod X kN
  have hval2 : kN * (X / kN) = X - X % kN := by omega
  rw [hval2]
  have hnogt : ¬ X - X % kN > p.BCDBeginPowLimit := by omega
  rw [if_neg hnogt]
  have hmlt : X % kN < kN := Nat.mod_lt _ (by omega)
  exact ⟨rfl, by omega, by omega⟩

/-- Witness for C7: window 3, spacing 600, constant target `2 ^ 100`; the result is the encoding of `2 ^ 100` rounded down to a multiple of `k * N = 10800`. -/
theorem Lwma_steady_state_witness :
    LwmaCalculateNextWorkRequired (wChain 3) wParams =
      GetCompact (2 ^ 100 - 2 ^ 100 % 10800) ∧
    2 ^ 100 - 2 ^ 100 % 10800 ≤ 2 ^ 100 ∧
    (2 ^ 100 : Nat) < (2 ^ 100 - 2 ^ 100 % 10800) + 10800 :=
  Lwma_steady_state (wChain 3) wParams (GetCompact (2 ^ 100)) (2 ^ 100) 10800
    rfl (by decide) (by decide) (by decide) (by decide)
    (by intro j h1 h2; rfl)
    (by
      intro j h1 h2
      show (1000 + 600 * ((j + 1 : Nat) : Int)) = (1000 + 600 * (j : Int)) + 600
      push_cast
      ring)
    (by decide) (by decide) (by decide)

/-- C8 (amended): every freshly computed target decodes to at most the applicable ceiling — the dispatcher's fixed-height encodings, the legacy boundary retarget (ceiling powLimit), and every LWMA result including bootstrap and relaxation (ceiling BCDBeginPowLimit) — provided the ceilings are 256-bit values. The claim fails as stated for the paths that return stored chain bits unchanged (legacy off-boundary pass-through; see the counterexample). -/
theorem ceiling_invariant (ch : Chain) (nFirstBlockTime pblockTime : Int) (p : Params)
    (hpl : p.powLimit < 2 ^ 256) (hbl : p.BCDBeginPowLimit < 2 ^ 256) :
    SetCompact (GetCompact p.powLimit) ≤ p.powLimit ∧
    SetCompact (GetCompact p.BCDBeginPowLimit) ≤ p.BCDBeginPowLimit ∧
    (p.fPowNoRetargeting = false →
      SetCompact (CalculateNextWorkRequired ch nFirstBlockTime p) ≤ p.powLimit) ∧
    (p.fPowNoRetargeting = false →
      SetCompact (LwmaCalculateNextWorkRequired ch p) ≤ p.BCDBeginPowLimit) ∧
    (p.fPowNoRetargeting = false →
      SetCompact (LwmaGetNextWorkRequired ch pblockTime p) ≤ p.BCDBeginPowLimit) := by
  have h1 := SetCompact_GetCompact_le hpl
  have h2 := SetCompact_GetCompact_le hbl
  have h3 : p.fPowNoRetargeting = false →
      SetCompact (CalculateNextWorkRequired ch nFirstBlockTime p) ≤ p.powLimit := by
    intro hNR
    have hval : CalculateNextWorkValue ch nFirstBlockTime p ≤ p.powLimit := by
      simp only [CalculateNextWorkValue]
      split_ifs with h <;> omega
    have heq : CalculateNextWorkRequired ch nFirstBlockTime p =
        GetCompact (CalculateNextWorkValue ch nFirstBlockTime p) := by
      simp only [CalculateNextWorkRequired, hNR, Bool.false_eq_true, if_false]
    rw [heq]
    exact le_trans (SetCompact_GetCompact_le (by omega)) hval
  have h4 : p.fPowNoRetargeting = false →
      SetCompact (LwmaCalculateNextWorkRequired ch p) ≤ p.BCDBeginPowLimit := by
    intro hNR
    simp only [LwmaCalculateNextWorkRequired, hNR, Bool.false_eq_true, if_false]
    split_ifs with hh hc
    · exact h2
    · exact h2
    · exact le_trans (SetCompact_GetCompact_le (by omega)) (by omega)
  refine ⟨h1, h2, h3, h4, ?_⟩
  intro hNR
  simp only [LwmaGetNextWorkRequired]
  split_ifs with hc
  · exact h2
  · exact h4 hNR

/-- Witness for C8 (amended) at concrete parameters with 256-bit ceilings. -/
theorem ceiling_invariant_witness :
    SetCompact (GetCompact wParams.powLimit) ≤ wParams.powLimit ∧
    SetCompact (GetCompact wParams.BCDBeginPowLimit) ≤ wParams.BCDBeginPowLimit ∧
    SetCompact (CalculateNextWorkRequired (wChain 13) 1000 wParams) ≤ wParams.powLimit ∧
    SetCompact (LwmaCalculateNextWorkRequired (wChain 25) wParams) ≤
      wParams.BCDBeginPowLimit ∧
    SetCompact (LwmaGetNextWorkRequired (wChain 25) 0 wParams) ≤ wParams.BCDBeginPowLimit :=
  ⟨(ceiling_invariant (wChain 13) 1000 0 wParams (by decide) (by decide)).1,
   (ceiling_invariant (wChain 13) 1000 0 wParams (by decide) (by decide)).2.1,
   (ceiling_invariant (wChain 13) 1000 0 wParams (by decide) (by decide)).2.2.1 rfl,
   (ceiling_invariant (wChain 25) 1000 0 wParams (by decide) (by decide)).2.2.2.1 rfl,
   (ceiling_invariant (wChain 25) 1000 0 wParams (by decide) (by decide)).2.2.2.2 rfl⟩

/-- Counterexample to C8 as stated: a legacy-governed off-boundary call with relaxation disabled returns the stored bits unchanged, and they decode to `2 ^ 210`, above the powLimit ceiling `2 ^ 200`. -/
theorem ceiling_invariant_cex :
    cexCh8.tipHeight + 1 < cexP8.ZawyLWMAHeight ∧
    cexP8.fPowAllowMinDifficultyBlocks = false ∧
    cexP8.fPowNoRetargeting = false ∧
    ¬ SetCompact (GetNextWorkRequired cexCh8 0 cexP8) ≤ cexP8.powLimit := by
  refine ⟨by decide, rfl, rfl, by decide⟩

/-- C9: the two revisions of the LWMA computation in the repository return identical compact results on every chain and parameters: `N * (N + 1)` is even, so the two formulas for k agree exactly, the window loops are identical, and the final multiplication merely swaps its operands. -/
theorem Lwma_revision_equiv (ch : Chain) (p : Params) :
    LwmaCalculateNextWorkRequired0 ch p = LwmaCalculateNextWorkRequired ch p := by
  have hk : p.nZawyLwmaAveragingWindow * (p.nZawyLwmaAveragingWindow + 1) / 2 *
      p.nPowTargetSpacing =
      p.nZawyLwmaAveragingWindow * (p.nZawyLwmaAveragingWindow + 1) *
        p.nPowTargetSpacing / 2 := by
    obtain ⟨m, hm⟩ := Int.even_mul_succ_self p.nZawyLwmaAveragingWindow
    rw [hm]
    have h2 : m + m = 2 * m := by ring
    rw [h2, Int.mul_ediv_cancel_left m (by norm_num), mul_assoc,
      Int.mul_ediv_cancel_left (m * p.nPowTargetSpacing) (by norm_num)]
  simp only [LwmaCalculateNextWorkRequired0, LwmaCalculateNextWorkRequired, hk,
    lwmaLoop0_eq_lwmaLoop]
  rw [Nat.mul_comm]

/-- C10: with the minimum-difficulty relaxation disabled, the dispatcher result does not depend on the candidate block time: both uses of the candidate time sit behind the relaxation toggle. -/
theorem GetNextWorkRequired_time_independent (ch : Chain) (t1 t2 : Int) (p : Params)
    (h : p.fPowAllowMinDifficultyBlocks = false) :
    GetNextWorkRequired ch t1 p = GetNextWorkRequired ch t2 p := by
  simp [GetNextWorkRequired, BCDGetNextWorkRequired, LwmaGetNextWorkRequired, h]

/-- Witness for C10 at two different candidate times. -/
theorem GetNextWorkRequired_time_independent_witness :
    GetNextWorkRequired (wChain 13) 111 wParams = GetNextWorkRequired (wChain 13) 999 wParams :=
  GetNextWorkRequired_time_independent (wChain 13) 111 999 wParams rfl

end BCDPow
